import Mathlib

/-!
Verification of the selection-state propagation algorithm of
`checkbox-ng/checkbox_ng/urwid_ui.py`.

The module renders a category/job tree in which every node carries a boolean
selection flag (`FlagUnitWidget.flagged`, initialized to `True`).  The space
key toggles a node's flag and propagates the new state downward
(`set_descendants_state`) and upward (`set_ancestors_state`).  On exit,
`CategoryBrowser.run` collects the keys of the flagged widgets stored in the
module-global `_widget_cache` and clears the session globals.

We embed the tree of widgets as a rose tree whose node data mirrors the
widget attributes used by the algorithm:

* `key`      : the node key (`node.get_key()`; a job id for leaves);
* `is_leaf`  : whether the widget is a leaf (`JobTreeWidget`) or a category
  (`CategoryWidget`, including the depth-0 root);
* `flagged`  : the selection flag;
* `materialized` : whether the node has a live widget, i.e. whether
  `update_w()` succeeds on it.  `set_descendants_state` wraps `update_w()` in
  `try ... except AttributeError: break`; the exception is raised by the
  external urwid toolkit exactly when the child has no live widget yet
  (spec sections 4.3 and 7), which we model with this boolean;
* `expanded` : the expand/collapse presentation bit.

Operations on the tree are pure functions; a node inside the tree is
addressed by the list of child indices leading to it from the root.
-/

/-- Job descriptor as stored in the module-global `test_info_list` built by
`CategoryBrowser.__init__`: id, translated summary, effective category id. -/
structure JobInfo where
  id : String
  name : String
  category_id : String
deriving Repr, DecidableEq

/-- Attributes of one `FlagUnitWidget` that the propagation algorithm reads
or writes. -/
structure UnitData where
  key : String
  is_leaf : Bool
  flagged : Bool
  materialized : Bool
  expanded : Bool
deriving Repr, DecidableEq

/-- Rose tree of widgets: a node and its ordered children
(`get_child_keys` order). -/
inductive UTree where
  | node (d : UnitData) (cs : List UTree)
deriving Repr

/-- Data stored at the root of a tree. -/
def rootData : UTree → UnitData
  | .node d _ => d

/-- Children of the root of a tree. -/
def childrenOf : UTree → List UTree
  | .node _ cs => cs

/-- Selection flag of the root of a tree
(`....get_widget().flagged` in the source). -/
def flagOf (t : UTree) : Bool := (rootData t).flagged

/-- Subtree reached by following a list of child indices. -/
def subtreeAt : UTree → List Nat → Option UTree
  | t, [] => some t
  | .node _ cs, i :: p =>
    match cs[i]? with
    | some c => subtreeAt c p
    | none => none

/-- Node data at a position. -/
def nodeAt (t : UTree) (p : List Nat) : Option UnitData :=
  (subtreeAt t p).map rootData

/-- Selection flag at a position. -/
def flagAt (t : UTree) (p : List Nat) : Option Bool :=
  (nodeAt t p).map (·.flagged)

/-- Replace the child at index `i` by `f` of it; identity when out of range
(the Python code never indexes out of range). -/
def updateChild (cs : List UTree) (i : Nat) (f : UTree → UTree) : List UTree :=
  match cs[i]? with
  | some c => cs.set i (f c)
  | none => cs

/-- Rewrite the node data at a position. -/
def modifyDataAt (f : UnitData → UnitData) : UTree → List Nat → UTree
  | .node d cs, [] => .node (f d) cs
  | .node d cs, i :: p => .node d (updateChild cs i (fun c => modifyDataAt f c p))

/-- Rewrite the whole subtree at a position. -/
def mapSubtreeAt (f : UTree → UTree) : UTree → List Nat → UTree
  | t, [] => f t
  | .node d cs, i :: p => .node d (updateChild cs i (fun c => mapSubtreeAt f c p))

/-- Body of the `for key in node.get_child_keys()` loop of
`FlagUnitWidget.set_descendants_state`: each child's flag is set to
`new_state`; then `update_w()` is attempted, and on `AttributeError`
(child not materialized) the loop breaks, leaving the remaining siblings
and the child's own subtree untouched; otherwise the recursion
`child_w.set_descendants_state(new_state)` continues into the child
(which is a no-op below a leaf). -/
def set_descendants_list (new_state : Bool) : List UTree → List UTree
  | [] => []
  | UTree.node cd ccs :: rest =>
    let cd' := { cd with flagged := new_state }
    if cd.materialized then
      (if cd.is_leaf then UTree.node cd' ccs
       else UTree.node cd' (set_descendants_list new_state ccs))
        :: set_descendants_list new_state rest
    else
      UTree.node cd' ccs :: rest

/-- `FlagUnitWidget.set_descendants_state(new_state)` applied to the root of
the given subtree: returns immediately on a leaf, otherwise processes the
children as in `set_descendants_list`. -/
def set_descendants_state (new_state : Bool) : UTree → UTree
  | UTree.node d cs =>
    if d.is_leaf then UTree.node d cs
    else UTree.node d (set_descendants_list new_state cs)

/-- True when some child other than the one at index `i` has a true flag.
This is what the `any(...)` guard of `set_ancestors_state` computes at an
ancestor whose path child is currently unflagged. -/
def sibAny : List UTree → Nat → Bool
  | [], _ => false
  | _ :: cs, 0 => cs.any flagOf
  | c :: cs, i + 1 => flagOf c || sibAny cs i

/-- Branch of `FlagUnitWidget.set_ancestors_state` taken when `self.flagged`
is true: every ancestor's flag is unconditionally set to `new_state`
(`while parent: parent_w.flagged = new_state; parent = parent.get_parent()`).
The node at the full path itself is not touched. -/
def anc_set_true (new_state : Bool) : UTree → List Nat → UTree
  | t, [] => t
  | .node d cs, i :: p =>
    .node { d with flagged := new_state }
      (updateChild cs i (fun c => anc_set_true new_state c p))

/-- Branch of `FlagUnitWidget.set_ancestors_state` taken when `self.flagged`
is false.  Walking upward from the parent of the toggled node, each ancestor
first checks `any(child.flagged for child in children)` against the current
(already partially updated) flags; if some child is flagged the walk breaks
without modifying this ancestor or any ancestor above it, otherwise the
ancestor's flag is set to `new_state` and the walk continues.  The returned
boolean records whether the walk broke at or below this node's level. -/
def anc_set_false (new_state : Bool) : UTree → List Nat → UTree × Bool
  | t, [] => (t, false)
  | .node d cs, i :: p =>
    match cs[i]? with
    | none => (.node d cs, true)
    | some c =>
      let r := anc_set_false new_state c p
      let cs' := cs.set i r.1
      if r.2 then (.node d cs', true)
      else if cs'.any flagOf then (.node d cs', true)
      else (.node { d with flagged := new_state } cs', false)

/-- `FlagUnitWidget.set_ancestors_state(new_state)` for the widget at path
`p`: dispatches on the widget's own `flagged` attribute. -/
def set_ancestors_state (t : UTree) (p : List Nat) (new_state : Bool) : UTree :=
  match nodeAt t p with
  | none => t
  | some d =>
    if d.flagged then anc_set_true new_state t p
    else (anc_set_false new_state t p).1

/-- State of the tree after the first two statements of the space branch of
`unhandled_keys`: `self.flagged = not self.flagged` (the flag at `p` becomes
`b`) followed by `self.set_descendants_state(self.flagged)`. -/
def toggleMid (t : UTree) (p : List Nat) (b : Bool) : UTree :=
  mapSubtreeAt (set_descendants_state b)
    (modifyDataAt (fun d => { d with flagged := b }) t p) p

/-- Space-key branch of `FlagUnitWidget.unhandled_keys` for the widget at
path `p`: flip the flag, propagate to descendants, then to ancestors. -/
def toggleAt (t : UTree) (p : List Nat) : UTree :=
  match nodeAt t p with
  | none => t
  | some d =>
    set_ancestors_state (toggleMid t p (!d.flagged)) p (!d.flagged)

/-! ### Node-wise predicates over a tree -/

mutual
/-- All nodes of a tree satisfy `Q` (applied to a node's data and children). -/
def allNodes (Q : UnitData → List UTree → Bool) : UTree → Bool
  | .node d cs => Q d cs && allNodesList Q cs

/-- All nodes of every tree of the list satisfy `Q`. -/
def allNodesList (Q : UnitData → List UTree → Bool) : List UTree → Bool
  | [] => true
  | t :: ts => allNodes Q t && allNodesList Q ts
end

/-- Node predicate: the widget is materialized (has a live widget). -/
def matP (d : UnitData) (_ : List UTree) : Bool := d.materialized

/-- Node predicate: the flag equals `b`. -/
def flagP (b : Bool) (d : UnitData) (_ : List UTree) : Bool := d.flagged == b

/-- Node predicate: leaves have no children (true of the program's trees:
`JobNode` is a plain `TreeNode` without children). -/
def leafChildlessP (d : UnitData) (cs : List UTree) : Bool :=
  !d.is_leaf || cs.isEmpty

/-- Node predicate for the shape of the program's trees: leaves are
childless and categories (non-leaves) have at least one child, since
`load_child_keys` lists the participating categories and each category's
jobs. -/
def wellFormedP (d : UnitData) (cs : List UTree) : Bool :=
  if d.is_leaf then cs.isEmpty else !cs.isEmpty

/-- Every widget of the tree is materialized. -/
def allMaterialized : UTree → Bool := allNodes matP

/-- Every flag of the tree equals `b`. -/
def allFlags (b : Bool) : UTree → Bool := allNodes (flagP b)

/-- The tree has the shape produced by `CategoryNode`/`JobNode`. -/
def wellFormed : UTree → Bool := allNodes wellFormedP

/-- Materialized children of a node (those with a live widget). -/
def matChildren (cs : List UTree) : List UTree :=
  cs.filter (fun c => (rootData c).materialized)

/-- Node predicate of spec section 8, property 1: a non-leaf node's flag is
true exactly when some materialized direct child is flagged or the node has
zero materialized children. -/
def invP (d : UnitData) (cs : List UTree) : Bool :=
  d.is_leaf || (d.flagged == ((matChildren cs).isEmpty || (matChildren cs).any flagOf))

/-- Upward/downward consistency invariant over the whole tree. -/
def selectionInvariant : UTree → Bool := allNodes invP

mutual
/-- Copy of a tree with every flag reset, used to state that the toggle
operations change only `flagged` attributes. -/
def eraseFlag : UTree → UTree
  | .node d cs => .node { d with flagged := false } (eraseFlagList cs)

/-- List version of `eraseFlag`. -/
def eraseFlagList : List UTree → List UTree
  | [] => []
  | t :: ts => eraseFlag t :: eraseFlagList ts
end

/-! ### Widget cache, session collection and globals -/

mutual
/-- Entries `(key, flagged)` of the module-global `_widget_cache` for the
materialized widgets of a tree.  Only `JobTreeWidget.__init__` calls
`add_widget`, so exactly the leaf widgets register; `CategoryWidget` and the
root never do. -/
def cacheEntries : UTree → List (String × Bool)
  | .node d cs =>
    (if d.is_leaf && d.materialized then [(d.key, d.flagged)] else [])
      ++ cacheEntriesList cs

/-- List version of `cacheEntries`. -/
def cacheEntriesList : List UTree → List (String × Bool)
  | [] => []
  | t :: ts => cacheEntries t ++ cacheEntriesList ts
end

mutual
/-- Keys of all leaf (job) nodes of a tree. -/
def leafKeys : UTree → List String
  | .node d cs => (if d.is_leaf then [d.key] else []) ++ leafKeysList cs

/-- List version of `leafKeys`. -/
def leafKeysList : List UTree → List String
  | [] => []
  | t :: ts => leafKeys t ++ leafKeysList ts
end

/-- Selection collected by `CategoryBrowser.run` after the main loop: the
keys of the cached widgets whose flag is true
(`for w in _widget_cache.values(): if w.flagged: selection.append(...)`). -/
def runSelection (t : UTree) : List String :=
  ((cacheEntries t).filter (fun e => e.2)).map (fun e => e.1)

/-- Module-global state of `checkbox_ng.urwid_ui`:
`_widget_cache`, `test_info_list` and `show_job_ids`. -/
structure Globals where
  widget_cache : List (String × Bool)
  test_info_list : List JobInfo
  show_job_ids : Bool
deriving Repr, DecidableEq

/-- Tail of `CategoryBrowser.run` after the urwid main loop exits: collect
the keys of the flagged cached widgets, then reassign
`_widget_cache = {}` and `test_info_list = ()`.  No statement of `run`
touches `show_job_ids`. -/
def runSession (g : Globals) : List String × Globals :=
  (((g.widget_cache.filter (fun e => e.2)).map (fun e => e.1)),
   { widget_cache := [], test_info_list := [], show_job_ids := g.show_job_ids })

/-! ### Display-mode toggle and the key dispatcher -/

/-- `JobTreeWidget.get_display_text`: the job id when `show_job_ids` is set,
the job's display name otherwise. -/
def get_display_text (show_ids : Bool) (key name : String) : String :=
  if show_ids then key else name

/-- Labels recomputed for every widget of the cache, as done by the
`i`/`I` branch of `unhandled_keys` (`w.load_inner_widget()` re-renders each
cached widget's label from the current display mode). -/
def renderCacheLabels (show_ids : Bool) (t : UTree) (names : String → String) :
    List (String × String) :=
  (cacheEntries t).map (fun e => (e.1, get_display_text show_ids e.1 (names e.1)))

/-- Whether the node at `p` is a leaf (irrelevant default for an invalid
path, which the running program never produces). -/
def is_leafAt (t : UTree) (p : List Nat) : Bool :=
  match nodeAt t p with
  | some d => d.is_leaf
  | none => true

/-- Enter-key branch of `unhandled_keys` on a non-leaf:
`self.expanded = not self.expanded`. -/
def flipExpandedAt (t : UTree) (p : List Nat) : UTree :=
  modifyDataAt (fun d => { d with expanded := !d.expanded }) t p

/-- Interactive state seen by `unhandled_keys`: the widget tree, the
module-global `show_job_ids`, and the rendered labels of the cached
widgets. -/
structure UIState where
  tree : UTree
  show_job_ids : Bool
  labels : List (String × String)

/-- `FlagUnitWidget.unhandled_keys` for the widget at path `p`: space
toggles and propagates the flag; enter (on a non-leaf) flips `expanded`;
`i`/`I` flips the module-global `show_job_ids` and re-renders the label of
every cached widget; any other key is returned unhandled. -/
def unhandled_keys (key : String) (p : List Nat) (names : String → String)
    (s : UIState) : UIState :=
  if key = " " then { s with tree := toggleAt s.tree p }
  else if !(is_leafAt s.tree p) && key = "enter" then
    { s with tree := flipExpandedAt s.tree p }
  else if key = "i" || key = "I" then
    { tree := s.tree, show_job_ids := !s.show_job_ids,
      labels := renderCacheLabels (!s.show_job_ids) s.tree names }
  else s

/-! ### Tree construction (`CategoryNode.load_child_keys` etc.) -/

/-- Lexicographic comparison of code-point sequences, the order used by
Python's `sorted` on strings. -/
def charsLe : List Char → List Char → Bool
  | [], _ => true
  | _ :: _, [] => false
  | a :: as, b :: bs =>
    if a.toNat < b.toNat then true
    else if b.toNat < a.toNat then false
    else charsLe as bs

/-- String comparison for `sorted(...)`. -/
def strLe (a b : String) : Bool := charsLe a.data b.data

/-- Insertion into a sorted list. -/
def insertSorted (x : String) : List String → List String
  | [] => [x]
  | y :: ys => if strLe x y then x :: y :: ys else y :: insertSorted x ys

/-- Sorting as performed by `sorted` in `load_child_keys`. -/
def sortStrings (l : List String) : List String :=
  l.foldr insertSorted []

/-- Child keys of a `CategoryNode` of depth 1 (`load_child_keys`): the ids
of the jobs of `test_info_list` whose `category_id` equals the category's
key, sorted. -/
def categoryJobIds (jobs : List JobInfo) (c : String) : List String :=
  sortStrings ((jobs.filter (fun j => j.category_id == c)).map (fun j => j.id))

/-- Freshly created job widget: `FlagUnitWidget.__init__` sets
`flagged = True`, `JobTreeWidget.__init__` registers it in the cache. -/
def mkJobLeaf (id : String) : UTree :=
  UTree.node ⟨id, true, true, true, true⟩ []

/-- Freshly created category widget (depth 1) with its job children. -/
def mkCategoryNode (jobs : List JobInfo) (c : String) : UTree :=
  UTree.node ⟨c, false, true, true, false⟩ ((categoryJobIds jobs c).map mkJobLeaf)

/-- Tree produced by `CategoryBrowser.__init__` once
`root_node.get_widget().set_descendants_state(True)` has run: the root
(depth 0) has one child per participating category (`cats`, already ordered
by translated category name as `load_child_keys` sorts them), each category
has one leaf per job of `test_info_list` whose `category_id` matches,
sorted by job id.  Every widget has been freshly created with
`flagged = True` and — because `get_widget()` creates each child widget
right before `update_w()` is attempted on it, so no `AttributeError` can
occur during this initial descent — every widget of the whole tree is
materialized; the root is expanded and the categories are collapsed
(`CategoryWidget.__init__`). -/
def initialTree (cats : List String) (jobs : List JobInfo) : UTree :=
  UTree.node ⟨"", false, true, true, true⟩ (cats.map (mkCategoryNode jobs))

/-! ### Plan picker (`TestPlanBrowser`) -/

/-- Radio-button states of `TestPlanBrowser` before the main loop: one
button per plan, all created with `state=False`; then
`if selection: radio_button_group[selection].set_state(True)` — note that
Python's truthiness skips the pre-selection both for `None` and for `0`. -/
def initialRadioStates (n : Nat) (selection : Option Nat) : List Bool :=
  match selection with
  | some s => if s ≠ 0 then (List.replicate n false).set s true else List.replicate n false
  | none => List.replicate n false

/-- Index of the first true entry of a list of booleans, if any. -/
def firstTrueIdx : List Bool → Option Nat
  | [] => none
  | b :: bs => if b then some 0 else (firstTrueIdx bs).map (· + 1)

/-- Value returned by `TestPlanBrowser` after the loop:
`next(radio_button_group.index(i) for i in radio_button_group if i.state)`
is the index of the first button whose state is true, and the
`StopIteration` handler returns `None` when no button is selected. -/
def testPlanResult (states : List Bool) : Option Nat :=
  firstTrueIdx states

/-! ### List helper lemmas -/

theorem getq_set_self {α : Type} (cs : List α) (i : Nat) (c x : α)
    (h : cs[i]? = some c) : (cs.set i x)[i]? = some x := by
  induction cs generalizing i with
  | nil => simp at h
  | cons a as ih =>
    cases i with
    | zero => simp
    | succ n => simpa using ih n (by simpa using h)

theorem getq_set_ne {α : Type} (cs : List α) (i j : Nat) (x : α)
    (h : j ≠ i) : (cs.set i x)[j]? = cs[j]? := by
  induction cs generalizing i j with
  | nil => simp
  | cons a as ih =>
    cases i with
    | zero =>
      cases j with
      | zero => exact absurd rfl h
      | succ m => simp
    | succ n =>
      cases j with
      | zero => simp
      | succ m => simpa using ih n m (fun hc => h (by simpa using hc))

theorem set_set_self {α : Type} (cs : List α) (i : Nat) (x y : α) :
    (cs.set i x).set i y = cs.set i y := by
  induction cs generalizing i with
  | nil => rfl
  | cons a as ih =>
    cases i with
    | zero => rfl
    | succ n => simp [ih n]

theorem set_self_of_getq {α : Type} (cs : List α) (i : Nat) (c : α)
    (h : cs[i]? = some c) : cs.set i c = cs := by
  induction cs generalizing i with
  | nil => rfl
  | cons a as ih =>
    cases i with
    | zero => simpa using (by simpa using h : a = c).symm
    | succ n => simpa using ih n (by simpa using h)

/-! ### C5: the `AttributeError` short-circuit of `set_descendants_state` -/

theorem set_descendants_list_break (b : Bool) (pre post : List UTree)
    (cd : UnitData) (ccs : List UTree)
    (hpre : pre.all (fun t => (rootData t).materialized) = true)
    (hC : cd.materialized = false) :
    set_descendants_list b (pre ++ UTree.node cd ccs :: post) =
      set_descendants_list b pre ++ UTree.node { cd with flagged := b } ccs :: post := by
  induction pre with
  | nil => simp [set_descendants_list, hC]
  | cons t ts ih =>
    cases t with
    | node ed ecs =>
      simp only [List.all_cons, Bool.and_eq_true] at hpre
      have h1 : ed.materialized = true := by simpa [rootData] using hpre.1
      simp [set_descendants_list, h1, ih hpre.2]

/-- C5: during `set_descendants_state`, when updating child `C`'s visual
representation fails because `C` has no live widget (`update_w` raises
`AttributeError`), the recursive descent stops immediately without raising:
the earlier siblings are fully processed, `C`'s own flag has already been
set to the new state, and `C`'s subtree and the later siblings are left
untouched. -/
theorem descendant_break_semantics (b : Bool) (d : UnitData)
    (pre post : List UTree) (cd : UnitData) (ccs : List UTree)
    (hpre : pre.all (fun t => (rootData t).materialized) = true)
    (hC : cd.materialized = false) (hleaf : d.is_leaf = false) :
    set_descendants_state b (UTree.node d (pre ++ UTree.node cd ccs :: post)) =
      UTree.node d
        (set_descendants_list b pre ++ UTree.node { cd with flagged := b } ccs :: post) := by
  simp [set_descendants_state, hleaf, set_descendants_list_break b pre post cd ccs hpre hC]

theorem descendant_break_semantics_witness :
    ([UTree.node ⟨"job1", true, true, true, true⟩ []].all
        (fun t => (rootData t).materialized) = true)
    ∧ (UnitData.mk "job2" true true false true).materialized = false
    ∧ (UnitData.mk "A" false true true false).is_leaf = false
    ∧ set_descendants_state false
        (UTree.node ⟨"A", false, true, true, false⟩
          ([UTree.node ⟨"job1", true, true, true, true⟩ []]
            ++ UTree.node ⟨"job2", true, true, false, true⟩ []
              :: [UTree.node ⟨"job3", true, true, true, true⟩ []])) =
      UTree.node ⟨"A", false, true, true, false⟩
        (set_descendants_list false [UTree.node ⟨"job1", true, true, true, true⟩ []]
          ++ UTree.node ⟨"job2", true, false, false, true⟩ []
            :: [UTree.node ⟨"job3", true, true, true, true⟩ []]) :=
  ⟨by decide, by decide, by decide,
   descendant_break_semantics false ⟨"A", false, true, true, false⟩
     [UTree.node ⟨"job1", true, true, true, true⟩ []]
     [UTree.node ⟨"job3", true, true, true, true⟩ []]
     ⟨"job2", true, true, false, true⟩ [] (by decide) (by decide) (by decide)⟩

/-! ### C4: end-to-end scenario with categories A and B -/

/-- Job descriptors of the end-to-end scenario of spec section 8,
properties 5 and 6: categories `A: [job1, job2]` and `B: [job3]`. -/
def jobsAB : List JobInfo :=
  [⟨"job1", "Job 1", "A"⟩, ⟨"job2", "Job 2", "A"⟩, ⟨"job3", "Job 3", "B"⟩]

/-- Initial (all-included, fully materialized) tree of that scenario. -/
def treeAB : UTree := initialTree ["A", "B"] jobsAB

/-- C4: starting all-included, un-selecting job1 and job2 leaves category A
excluded, category B and the root included, and the collected result set is
exactly `{job3}`; symmetrically, un-selecting only job3 leaves category B
excluded, category A and the root included, and the result set is
`{job1, job2}`. -/
theorem end_to_end_selection :
    (flagAt (List.foldl toggleAt treeAB [[0, 0], [0, 1]]) [0] = some false
      ∧ flagAt (List.foldl toggleAt treeAB [[0, 0], [0, 1]]) [1] = some true
      ∧ flagAt (List.foldl toggleAt treeAB [[0, 0], [0, 1]]) [] = some true
      ∧ runSelection (List.foldl toggleAt treeAB [[0, 0], [0, 1]]) = ["job3"])
    ∧ (flagAt (toggleAt treeAB [1, 0]) [1] = some false
      ∧ flagAt (toggleAt treeAB [1, 0]) [0] = some true
      ∧ flagAt (toggleAt treeAB [1, 0]) [] = some true
      ∧ runSelection (toggleAt treeAB [1, 0]) = ["job1", "job2"]) := by
  decide

/-! ### C8: session teardown -/

/-- C8 counterexample: after `run()` returns, `show_job_ids` is not reset to
its default `false` — starting a session with `show_job_ids = True` (as
after an odd number of `i` keypresses), it is still `True` after the
teardown, because `run` reassigns only `_widget_cache` and
`test_info_list`. -/
theorem run_does_not_reset_show_job_ids :
    ¬ ((runSession ⟨[("job1", true)], [], true⟩).2.show_job_ids = false) := by
  decide

/-- C8 amended: after `run()` returns, the widget cache and the job-info
list are reset to empty, but the display-mode flag `show_job_ids` keeps
whatever value it had — it is not reset to `false`. -/
theorem run_teardown_semantics (g : Globals) :
    (runSession g).2.widget_cache = []
    ∧ (runSession g).2.test_info_list = []
    ∧ (runSession g).2.show_job_ids = g.show_job_ids :=
  ⟨rfl, rfl, rfl⟩

/-! ### C9: the display-mode toggle touches no flag -/

/-- C9: pressing `i` or `I` only flips the process-wide `show_job_ids` mode
and re-renders the labels of the cached widgets; the flag of every node of
the tree is unchanged. -/
theorem display_toggle_preserves_flags (key : String) (p : List Nat)
    (names : String → String) (s : UIState) (hk : key = "i" ∨ key = "I") :
    (∀ q, flagAt (unhandled_keys key p names s).tree q = flagAt s.tree q)
    ∧ (unhandled_keys key p names s).show_job_ids = !s.show_job_ids
    ∧ (unhandled_keys key p names s).labels
        = renderCacheLabels (!s.show_job_ids) s.tree names := by
  have ht : unhandled_keys key p names s =
      { tree := s.tree, show_job_ids := !s.show_job_ids,
        labels := renderCacheLabels (!s.show_job_ids) s.tree names } := by
    rcases hk with h | h <;> subst h <;> simp [unhandled_keys]
  rw [ht]
  exact ⟨fun q => rfl, rfl, rfl⟩

theorem display_toggle_preserves_flags_witness :
    ("i" = "i" ∨ "i" = "I")
    ∧ flagAt (unhandled_keys "i" [] (fun _ => "")
          ⟨UTree.node ⟨"", false, true, true, true⟩ [], false, []⟩).tree []
        = flagAt (UTree.node ⟨"", false, true, true, true⟩ []) [] :=
  ⟨Or.inl rfl,
   (display_toggle_preserves_flags "i" [] (fun _ => "")
      ⟨UTree.node ⟨"", false, true, true, true⟩ [], false, []⟩ (Or.inl rfl)).1 []⟩

/-! ### C10: plan picker result -/

theorem firstTrueIdx_replicate_false (n : Nat) :
    firstTrueIdx (List.replicate n false) = none := by
  induction n with
  | zero => rfl
  | succ m ih => simp [List.replicate_succ, firstTrueIdx, ih]

theorem firstTrueIdx_set_true (n k : Nat) (h : k < n) :
    firstTrueIdx ((List.replicate n false).set k true) = some k := by
  induction n generalizing k with
  | zero => exact absurd h (Nat.not_lt_zero k)
  | succ m ih =>
    cases k with
    | zero => simp [List.replicate_succ, firstTrueIdx]
    | succ j =>
      simp [List.replicate_succ, firstTrueIdx, ih j (Nat.lt_of_succ_lt_succ h)]

/-- C10: with no prior selection every radio button starts unselected, so
finishing without choosing returns the `None` sentinel and not an index;
choosing entry `k` makes the browser return the index `k`. -/
theorem plan_picker_result (n : Nat) :
    testPlanResult (initialRadioStates n none) = none
    ∧ ∀ k, k < n →
        testPlanResult ((initialRadioStates n none).set k true) = some k := by
  constructor
  · simpa [testPlanResult, initialRadioStates] using firstTrueIdx_replicate_false n
  · intro k hk
    simpa [testPlanResult, initialRadioStates] using firstTrueIdx_set_true n k hk

theorem plan_picker_result_witness :
    (0 : Nat) < 3
    ∧ testPlanResult ((initialRadioStates 3 none).set 0 true) = some 0 :=
  ⟨by decide, (plan_picker_result 3).2 0 (by decide)⟩

/-! ### Generic lemmas about `allNodes` -/

theorem allNodes_node (Q : UnitData → List UTree → Bool) (d : UnitData)
    (cs : List UTree) :
    allNodes Q (UTree.node d cs) = (Q d cs && allNodesList Q cs) := by
  simp [allNodes]

theorem allNodesList_nil (Q : UnitData → List UTree → Bool) :
    allNodesList Q [] = true := by
  simp [allNodesList]

theorem allNodesList_cons (Q : UnitData → List UTree → Bool) (t : UTree)
    (ts : List UTree) :
    allNodesList Q (t :: ts) = (allNodes Q t && allNodesList Q ts) := by
  simp [allNodesList]

theorem allNodesList_append (Q : UnitData → List UTree → Bool)
    (xs ys : List UTree) :
    allNodesList Q (xs ++ ys) = (allNodesList Q xs && allNodesList Q ys) := by
  induction xs with
  | nil => simp [allNodesList]
  | cons t ts ih => simp [allNodesList_cons, ih, Bool.and_assoc]

theorem allNodesList_getq (Q : UnitData → List UTree → Bool)
    (cs : List UTree) (i : Nat) (c : UTree)
    (h : allNodesList Q cs = true) (hc : cs[i]? = some c) :
    allNodes Q c = true := by
  induction cs generalizing i with
  | nil => simp at hc
  | cons t ts ih =>
    rw [allNodesList_cons, Bool.and_eq_true] at h
    cases i with
    | zero => cases (by simpa using hc : t = c); exact h.1
    | succ n => exact ih n h.2 (by simpa using hc)

theorem allNodesList_set (Q : UnitData → List UTree → Bool)
    (cs : List UTree) (i : Nat) (x : UTree)
    (h : allNodesList Q cs = true) (hx : allNodes Q x = true) :
    allNodesList Q (cs.set i x) = true := by
  induction cs generalizing i with
  | nil => simpa using h
  | cons t ts ih =>
    rw [allNodesList_cons, Bool.and_eq_true] at h
    cases i with
    | zero => simp [allNodesList_cons, hx, h.2]
    | succ n => simp [allNodesList_cons, h.1, ih n h.2]

mutual
theorem allNodes_imp {Q R : UnitData → List UTree → Bool}
    (h : ∀ d cs, Q d cs = true → R d cs = true) :
    ∀ t, allNodes Q t = true → allNodes R t = true
  | UTree.node d cs, ht => by
    rw [allNodes_node, Bool.and_eq_true] at ht
    rw [allNodes_node, Bool.and_eq_true]
    exact ⟨h d cs ht.1, allNodesList_imp h cs ht.2⟩

theorem allNodesList_imp {Q R : UnitData → List UTree → Bool}
    (h : ∀ d cs, Q d cs = true → R d cs = true) :
    ∀ ts, allNodesList Q ts = true → allNodesList R ts = true
  | [], _ => by simp [allNodesList]
  | t :: ts, hts => by
    rw [allNodesList_cons, Bool.and_eq_true] at hts
    rw [allNodesList_cons, Bool.and_eq_true]
    exact ⟨allNodes_imp h t hts.1, allNodesList_imp h ts hts.2⟩
end

/-! ### C1: full downward propagation on a materialized subtree -/

theorem set_descendants_list_allFlags (b : Bool) :
    ∀ cs : List UTree,
      allNodesList matP cs = true →
      allNodesList leafChildlessP cs = true →
      allNodesList (flagP b) (set_descendants_list b cs) = true
  | [], _, _ => by simp [set_descendants_list, allNodesList]
  | UTree.node cd ccs :: rest, hm, hl => by
    rw [allNodesList_cons, Bool.and_eq_true, allNodes_node, Bool.and_eq_true] at hm hl
    have hcm : cd.materialized = true := hm.1.1
    simp only [set_descendants_list, hcm, if_true]
    rw [allNodesList_cons, Bool.and_eq_true]
    refine ⟨?_, set_descendants_list_allFlags b rest hm.2 hl.2⟩
    by_cases hlf : cd.is_leaf
    · have hccs : ccs = [] := by
        have := hl.1.1
        simp [leafChildlessP, hlf] at this
        simpa using this
      simp [hlf, hccs, allNodes_node, flagP, allNodesList]
    · simp only [hlf, if_neg, Bool.false_eq_true, not_false_iff, if_false]
      rw [allNodes_node, Bool.and_eq_true]
      exact ⟨by simp [flagP],
        set_descendants_list_allFlags b ccs hm.1.2 hl.1.2⟩

/-- C1: on a non-leaf node all of whose descendants are materialized,
`set_descendants_state(new_state)` leaves every descendant's flag equal to
`new_state`; on a leaf node the call changes nothing. -/
theorem set_descendants_state_semantics (d : UnitData) (cs : List UTree)
    (b : Bool)
    (hmat : allNodesList matP cs = true)
    (hlc : allNodesList leafChildlessP cs = true) :
    (d.is_leaf = false →
      allNodesList (flagP b)
        (childrenOf (set_descendants_state b (UTree.node d cs))) = true)
    ∧ (d.is_leaf = true →
        set_descendants_state b (UTree.node d cs) = UTree.node d cs) := by
  constructor
  · intro h
    simp only [set_descendants_state, h, Bool.false_eq_true, if_false, childrenOf]
    exact set_descendants_list_allFlags b cs hmat hlc
  · intro h
    simp [set_descendants_state, h]

theorem set_descendants_state_semantics_witness :
    (allNodesList matP
        [mkJobLeaf "job1", mkCategoryNode [⟨"job2", "J2", "B"⟩] "B"] = true)
    ∧ (allNodesList leafChildlessP
        [mkJobLeaf "job1", mkCategoryNode [⟨"job2", "J2", "B"⟩] "B"] = true)
    ∧ ((UnitData.mk "" false true true true).is_leaf = false →
        allNodesList (flagP false)
          (childrenOf (set_descendants_state false
            (UTree.node ⟨"", false, true, true, true⟩
              [mkJobLeaf "job1", mkCategoryNode [⟨"job2", "J2", "B"⟩] "B"]))) = true) :=
  ⟨by decide, by decide,
   (set_descendants_state_semantics ⟨"", false, true, true, true⟩
      [mkJobLeaf "job1", mkCategoryNode [⟨"job2", "J2", "B"⟩] "B"] false
      (by decide) (by decide)).1⟩

/-! ### C2: characterization of the upward walk on unflagging -/

theorem nodeAt_cons (d : UnitData) (cs : List UTree) (i : Nat) (p : List Nat)
    (c : UTree) (hc : cs[i]? = some c) :
    nodeAt (UTree.node d cs) (i :: p) = nodeAt c p := by
  simp [nodeAt, subtreeAt, hc]

theorem nodeAt_cons_none (d : UnitData) (cs : List UTree) (i : Nat)
    (p : List Nat) (hc : cs[i]? = none) :
    nodeAt (UTree.node d cs) (i :: p) = none := by
  simp [nodeAt, subtreeAt, hc]

theorem nodeAt_nil (t : UTree) : nodeAt t [] = some (rootData t) := by
  cases t with
  | node d cs => simp [nodeAt, subtreeAt, rootData]

theorem any_set_sib (cs : List UTree) (i : Nat) (c x : UTree)
    (hc : cs[i]? = some c) :
    (cs.set i x).any flagOf = (sibAny cs i || flagOf x) := by
  induction cs generalizing i with
  | nil => simp at hc
  | cons a as ih =>
    cases i with
    | zero => simp [sibAny, Bool.or_comm]
    | succ n =>
      have := ih n (by simpa using hc)
      simp [sibAny, this, Bool.or_assoc]

theorem any_eq_sib (cs : List UTree) (i : Nat) (c : UTree)
    (hc : cs[i]? = some c) :
    cs.any flagOf = (sibAny cs i || flagOf c) := by
  have := any_set_sib cs i c c hc
  rwa [set_self_of_getq cs i c hc] at this

/-- Conditions examined by the upward walk, listed top-down: for each
ancestor of the node at `p` (the entry at position `m` is the ancestor of
depth `m`, `m = 0` being the root), whether some direct child other than
the one leading to `p` is flagged.  When the walk reaches an ancestor, the
path child's flag is always false (for the parent because the toggled node
was just unflagged, higher up because the walk sets a level false before
moving up), so this equals the `any(...)` guard computed by
`set_ancestors_state` at that ancestor. -/
def sibConds : UTree → List Nat → List Bool
  | _, [] => []
  | .node _ cs, i :: p =>
    sibAny cs i ::
      (match cs[i]? with
       | some c => sibConds c p
       | none => [])

theorem all_drop_of_all (l : List Bool) (n : Nat)
    (h : l.all (fun x => !x) = true) : (l.drop n).all (fun x => !x) = true := by
  rw [List.all_eq_true] at h ⊢
  intro x hx
  exact h x (List.mem_of_mem_drop hx)

theorem ite_cond_true {α : Type} (a b : α) [inst : Decidable (true = true)] :
    (if true = true then a else b) = a := by
  cases inst with
  | isTrue h => rfl
  | isFalse h => exact absurd rfl h

theorem ite_cond_false {α : Type} (a b : α) [inst : Decidable (false = true)] :
    (if false = true then a else b) = b := by
  cases inst with
  | isTrue h => exact absurd h Bool.false_ne_true
  | isFalse h => rfl

theorem anc_set_false_char : ∀ (p : List Nat) (t : UTree),
    flagAt t p = some false →
    (∀ m, m < p.length →
        nodeAt ((anc_set_false false t p).1) (p.take m) =
          (if ((sibConds t p).drop m).all (fun x => !x) then
            (nodeAt t (p.take m)).map (fun d => { d with flagged := false })
          else nodeAt t (p.take m)))
    ∧ ((anc_set_false false t p).2 = !((sibConds t p).all (fun x => !x)))
    ∧ (∀ q, (∀ m, m < p.length → q ≠ p.take m) →
        nodeAt ((anc_set_false false t p).1) q = nodeAt t q)
  | [], t, _ => by
    refine ⟨fun m hm => absurd hm (Nat.not_lt_zero m), ?_, fun q _ => ?_⟩
    · cases t with
      | node d cs => simp [anc_set_false, sibConds]
    · cases t with
      | node d cs => simp [anc_set_false]
  | i :: p', UTree.node d cs, hf => by
    cases hc : cs[i]? with
    | none => exact absurd hf (by simp [flagAt, nodeAt_cons_none d cs i p' hc])
    | some c =>
      have hf' : flagAt c p' = some false := by
        simpa [flagAt, nodeAt_cons d cs i p' c hc] using hf
      have IH := anc_set_false_char p' c hf'
      have hconds : sibConds (UTree.node d cs) (i :: p')
          = sibAny cs i :: sibConds c p' := by
        simp [sibConds, hc]
      have hunfold : anc_set_false false (UTree.node d cs) (i :: p') =
          (if (anc_set_false false c p').2 then
            (UTree.node d (cs.set i (anc_set_false false c p').1), true)
          else if (cs.set i (anc_set_false false c p').1).any flagOf then
            (UTree.node d (cs.set i (anc_set_false false c p').1), true)
          else
            (UTree.node { d with flagged := false }
              (cs.set i (anc_set_false false c p').1), false)) := by
        simp only [anc_set_false, hc]
      have hshape : ∃ fl : Bool,
          (anc_set_false false (UTree.node d cs) (i :: p')).1 =
            UTree.node { d with flagged := fl }
              (cs.set i (anc_set_false false c p').1) := by
        rw [hunfold]
        split
        · exact ⟨d.flagged, rfl⟩
        · split
          · exact ⟨d.flagged, rfl⟩
          · exact ⟨false, rfl⟩
      have hsucc : ∀ m', m' < p'.length →
          nodeAt ((anc_set_false false (UTree.node d cs) (i :: p')).1)
              ((i :: p').take (m' + 1)) =
            (if ((sibConds (UTree.node d cs) (i :: p')).drop (m' + 1)).all
                (fun x => !x) then
              (nodeAt (UTree.node d cs) ((i :: p').take (m' + 1))).map
                (fun d => { d with flagged := false })
            else nodeAt (UTree.node d cs) ((i :: p').take (m' + 1))) := by
        intro m' hm'
        obtain ⟨fl, hfl⟩ := hshape
        rw [hfl, hconds, List.take_succ_cons, List.drop_succ_cons,
          nodeAt_cons { d with flagged := fl }
            (cs.set i (anc_set_false false c p').1) i (p'.take m')
            (anc_set_false false c p').1
            (getq_set_self cs i c (anc_set_false false c p').1 hc),
          nodeAt_cons d cs i (p'.take m') c hc]
        exact IH.1 m' hm'
      have hframe : ∀ q, (∀ m, m < (i :: p').length → q ≠ (i :: p').take m) →
          nodeAt ((anc_set_false false (UTree.node d cs) (i :: p')).1) q =
            nodeAt (UTree.node d cs) q := by
        intro q hq
        obtain ⟨fl, hfl⟩ := hshape
        cases q with
        | nil => exact absurd rfl (hq 0 (by simp))
        | cons j q' =>
          by_cases hji : j = i
          · subst hji
            rw [hfl,
              nodeAt_cons { d with flagged := fl }
                (cs.set j (anc_set_false false c p').1) j q'
                (anc_set_false false c p').1
                (getq_set_self cs j c (anc_set_false false c p').1 hc),
              nodeAt_cons d cs j q' c hc]
            refine IH.2.2 q' ?_
            intro m' hm' hq'
            exact hq (m' + 1) (by simpa using Nat.succ_lt_succ hm')
              (by rw [List.take_succ_cons, hq'])
          · rw [hfl]
            cases hcj : cs[j]? with
            | none =>
              rw [nodeAt_cons_none d cs j q' hcj]
              rw [nodeAt_cons_none { d with flagged := fl }
                (cs.set i (anc_set_false false c p').1) j q'
                (by rw [getq_set_ne cs i j (anc_set_false false c p').1 hji]
                    exact hcj)]
            | some cj =>
              rw [nodeAt_cons d cs j q' cj hcj]
              rw [nodeAt_cons { d with flagged := fl }
                (cs.set i (anc_set_false false c p').1) j q' cj
                (by rw [getq_set_ne cs i j (anc_set_false false c p').1 hji]
                    exact hcj)]
      have h21 := IH.2.1
      cases hall : (sibConds c p').all (fun x => !x) with
      | false =>
        rw [hall] at h21
        simp only [Bool.not_false] at h21
        have hres : anc_set_false false (UTree.node d cs) (i :: p') =
            (UTree.node d (cs.set i (anc_set_false false c p').1), true) := by
          rw [hunfold, h21, ite_cond_true]
        refine ⟨?_, ?_, hframe⟩
        · intro m hm
          cases m with
          | zero =>
            rw [List.take_zero, List.drop_zero, hconds, hres]
            simp [List.all_cons, hall, nodeAt_nil, rootData]
          | succ m' => exact hsucc m' (Nat.lt_of_succ_lt_succ hm)
        · rw [hres, hconds]
          simp [List.all_cons, hall]
      | true =>
        rw [hall] at h21
        simp only [Bool.not_true] at h21
        have hflagr : (rootData (anc_set_false false c p').1).flagged = false := by
          by_cases hlen : p'.length = 0
          · have hp0 : p' = [] := List.length_eq_zero.mp hlen
            subst hp0
            have hcf : (rootData c).flagged = false := by
              simpa [flagAt, nodeAt_nil] using hf'
            simpa [anc_set_false] using hcf
          · have h0 := IH.1 0 (Nat.pos_of_ne_zero hlen)
            rw [List.take_zero, List.drop_zero, hall, ite_cond_true,
              nodeAt_nil, nodeAt_nil, Option.map_some'] at h0
            have h0' := Option.some.inj h0
            rw [h0']
        have hany : (cs.set i (anc_set_false false c p').1).any flagOf
            = sibAny cs i := by
          rw [any_set_sib cs i c (anc_set_false false c p').1 hc]
          show (sibAny cs i || (rootData (anc_set_false false c p').1).flagged)
            = sibAny cs i
          rw [hflagr, Bool.or_false]
        cases hs : sibAny cs i with
        | true =>
          have hres : anc_set_false false (UTree.node d cs) (i :: p') =
              (UTree.node d (cs.set i (anc_set_false false c p').1), true) := by
            rw [hunfold, h21, ite_cond_false, hany, hs, ite_cond_true]
          refine ⟨?_, ?_, hframe⟩
          · intro m hm
            cases m with
            | zero =>
              rw [List.take_zero, List.drop_zero, hconds, hres]
              simp [List.all_cons, hs, nodeAt_nil, rootData]
            | succ m' => exact hsucc m' (Nat.lt_of_succ_lt_succ hm)
          · rw [hres, hconds]
            simp [List.all_cons, hs]
        | false =>
          have hres : anc_set_false false (UTree.node d cs) (i :: p') =
              (UTree.node { d with flagged := false }
                (cs.set i (anc_set_false false c p').1), false) := by
            rw [hunfold, h21, ite_cond_false, hany, hs, ite_cond_false]
          refine ⟨?_, ?_, hframe⟩
          · intro m hm
            cases m with
            | zero =>
              rw [List.take_zero, List.drop_zero, hconds, hres]
              simp [List.all_cons, hs, hall, nodeAt_nil, rootData]
            | succ m' => exact hsucc m' (Nat.lt_of_succ_lt_succ hm)
          · rw [hres, hconds]
            simp [List.all_cons, hs, hall]

/-- C2: characterization of `set_ancestors_state` on a node toggled to
false.  The walk goes upward from the parent one level at a time; the
ancestor at depth `m` ends with flag `false` exactly when no level between
it and the parent (inclusive) had another flagged direct child — i.e. the
walk stops at the nearest ancestor that still has another included child
and modifies neither it nor anything above it — and every position that is
not a proper ancestor of the toggled node is left unchanged. -/
theorem ancestor_walk_semantics (t : UTree) (p : List Nat)
    (hf : flagAt t p = some false) :
    (∀ m, m < p.length →
        nodeAt (set_ancestors_state t p false) (p.take m) =
          (if ((sibConds t p).drop m).all (fun x => !x) then
            (nodeAt t (p.take m)).map (fun d => { d with flagged := false })
          else nodeAt t (p.take m)))
    ∧ (∀ q, (∀ m, m < p.length → q ≠ p.take m) →
        nodeAt (set_ancestors_state t p false) q = nodeAt t q) := by
  obtain ⟨d0, hd0, hdf⟩ : ∃ d0, nodeAt t p = some d0 ∧ d0.flagged = false := by
    cases hn : nodeAt t p with
    | none => rw [flagAt, hn] at hf; simp at hf
    | some d0 => exact ⟨d0, rfl, by rw [flagAt, hn] at hf; simpa using hf⟩
  have hsas : set_ancestors_state t p false = (anc_set_false false t p).1 := by
    simp only [set_ancestors_state, hd0, hdf, Bool.false_eq_true, if_false]
  rw [hsas]
  obtain ⟨h1, _, h3⟩ := anc_set_false_char p t hf
  exact ⟨h1, h3⟩

/-- Tree in which job1 (position `[0, 0]`) has just been unflagged. -/
def treeW00 : UTree :=
  UTree.node ⟨"", false, true, true, true⟩
    [UTree.node ⟨"A", false, true, true, false⟩
      [UTree.node ⟨"job1", true, false, true, true⟩ [],
       UTree.node ⟨"job2", true, true, true, true⟩ []],
     UTree.node ⟨"B", false, true, true, false⟩
      [UTree.node ⟨"job3", true, true, true, true⟩ []]]

theorem ancestor_walk_semantics_witness :
    flagAt treeW00 [0, 0] = some false
    ∧ nodeAt (set_ancestors_state treeW00 [0, 0] false) (List.take 1 [0, 0]) =
        (if ((sibConds treeW00 [0, 0]).drop 1).all (fun x => !x) then
          (nodeAt treeW00 (List.take 1 [0, 0])).map
            (fun d => { d with flagged := false })
        else nodeAt treeW00 (List.take 1 [0, 0])) :=
  ⟨by decide,
   (ancestor_walk_semantics treeW00 [0, 0] (by decide)).1 1 (by decide)⟩

/-! ### The toggle operations change nothing but `flagged` attributes -/

theorem eraseFlagList_nil : eraseFlagList [] = [] := by
  simp [eraseFlagList]

theorem eraseFlagList_cons (t : UTree) (ts : List UTree) :
    eraseFlagList (t :: ts) = eraseFlag t :: eraseFlagList ts := by
  simp [eraseFlagList]

theorem eraseFlag_node (d : UnitData) (cs : List UTree) :
    eraseFlag (UTree.node d cs)
      = UTree.node { d with flagged := false } (eraseFlagList cs) := by
  simp [eraseFlag]

theorem eraseFlagList_set (cs : List UTree) (i : Nat) (c x : UTree)
    (hc : cs[i]? = some c) (hx : eraseFlag x = eraseFlag c) :
    eraseFlagList (cs.set i x) = eraseFlagList cs := by
  induction cs generalizing i with
  | nil => simp at hc
  | cons a as ih =>
    cases i with
    | zero =>
      have ha : a = c := by simpa using hc
      subst ha
      simp [eraseFlagList_cons, hx]
    | succ n =>
      simp [eraseFlagList_cons, ih n (by simpa using hc)]

theorem eraseFlag_sdl (b : Bool) : ∀ cs : List UTree,
    eraseFlagList (set_descendants_list b cs) = eraseFlagList cs
  | [] => by simp [set_descendants_list]
  | UTree.node cd ccs :: rest => by
    by_cases hm : cd.materialized
    · by_cases hl : cd.is_leaf
      · simp [set_descendants_list, hm, hl, eraseFlagList_cons, eraseFlag_node,
          eraseFlag_sdl b rest]
      · simp [set_descendants_list, hm, hl, eraseFlagList_cons, eraseFlag_node,
          eraseFlag_sdl b rest, eraseFlag_sdl b ccs]
    · simp [set_descendants_list, hm, eraseFlagList_cons, eraseFlag_node]

theorem eraseFlag_sds (b : Bool) (t : UTree) :
    eraseFlag (set_descendants_state b t) = eraseFlag t := by
  cases t with
  | node d cs =>
    by_cases hl : d.is_leaf
    · simp [set_descendants_state, hl]
    · simp [set_descendants_state, hl, eraseFlag_node, eraseFlag_sdl b cs]

theorem eraseFlag_modifyFlagAt (b : Bool) : ∀ (t : UTree) (p : List Nat),
    eraseFlag (modifyDataAt (fun d => { d with flagged := b }) t p) = eraseFlag t
  | UTree.node d cs, [] => by simp [modifyDataAt, eraseFlag_node]
  | UTree.node d cs, i :: p => by
    cases hc : cs[i]? with
    | none => simp [modifyDataAt, updateChild, hc]
    | some c =>
      simp [modifyDataAt, updateChild, hc, eraseFlag_node,
        eraseFlagList_set cs i c _ hc (eraseFlag_modifyFlagAt b c p)]

theorem eraseFlag_mapSubtreeAt (g : UTree → UTree)
    (hg : ∀ s, eraseFlag (g s) = eraseFlag s) : ∀ (t : UTree) (p : List Nat),
    eraseFlag (mapSubtreeAt g t p) = eraseFlag t
  | t, [] => by simp [mapSubtreeAt, hg t]
  | UTree.node d cs, i :: p => by
    cases hc : cs[i]? with
    | none => simp [mapSubtreeAt, updateChild, hc]
    | some c =>
      simp [mapSubtreeAt, updateChild, hc, eraseFlag_node,
        eraseFlagList_set cs i c _ hc (eraseFlag_mapSubtreeAt g hg c p)]

theorem eraseFlag_anc_true (b : Bool) : ∀ (t : UTree) (p : List Nat),
    eraseFlag (anc_set_true b t p) = eraseFlag t
  | t, [] => by simp [anc_set_true]
  | UTree.node d cs, i :: p => by
    cases hc : cs[i]? with
    | none => simp [anc_set_true, updateChild, hc, eraseFlag_node]
    | some c =>
      simp [anc_set_true, updateChild, hc, eraseFlag_node,
        eraseFlagList_set cs i c _ hc (eraseFlag_anc_true b c p)]

theorem eraseFlag_anc_false (b : Bool) : ∀ (t : UTree) (p : List Nat),
    eraseFlag ((anc_set_false b t p).1) = eraseFlag t
  | t, [] => by simp [anc_set_false]
  | UTree.node d cs, i :: p => by
    cases hc : cs[i]? with
    | none => simp [anc_set_false, hc]
    | some c =>
      have hrec := eraseFlag_anc_false b c p
      have hset2 : eraseFlagList (cs.set i (anc_set_false b c p).1)
          = eraseFlagList cs :=
        eraseFlagList_set cs i c (anc_set_false b c p).1 hc hrec
      simp only [anc_set_false, hc]
      split
      · simp [eraseFlag_node, hset2]
      · split
        · simp [eraseFlag_node, hset2]
        · simp [eraseFlag_node, hset2]

theorem eraseFlag_toggleAt (t : UTree) (p : List Nat) :
    eraseFlag (toggleAt t p) = eraseFlag t := by
  cases hn : nodeAt t p with
  | none => simp [toggleAt, hn]
  | some d0 =>
    have hmid : eraseFlag (toggleMid t p (!d0.flagged)) = eraseFlag t := by
      rw [toggleMid, eraseFlag_mapSubtreeAt _ (eraseFlag_sds _) _ p,
        eraseFlag_modifyFlagAt _ t p]
    simp only [toggleAt, hn]
    cases hn2 : nodeAt (toggleMid t p (!d0.flagged)) p with
    | none => simp only [set_ancestors_state, hn2]; exact hmid
    | some d1 =>
      simp only [set_ancestors_state, hn2]
      cases hb : d1.flagged with
      | true => rw [ite_cond_true, eraseFlag_anc_true, hmid]
      | false => rw [ite_cond_false, eraseFlag_anc_false, hmid]

theorem eraseFlagList_isEmpty (ts : List UTree) :
    (eraseFlagList ts).isEmpty = ts.isEmpty := by
  cases ts with
  | nil => simp [eraseFlagList]
  | cons t ts => simp [eraseFlagList_cons]

mutual
theorem allNodes_eraseFlag (Q : UnitData → List UTree → Bool)
    (hQ : ∀ d cs, Q { d with flagged := false } (eraseFlagList cs) = Q d cs) :
    ∀ t, allNodes Q (eraseFlag t) = allNodes Q t
  | UTree.node d cs => by
    rw [eraseFlag_node, allNodes_node, allNodes_node, hQ d cs,
      allNodesList_eraseFlag Q hQ cs]

theorem allNodesList_eraseFlag (Q : UnitData → List UTree → Bool)
    (hQ : ∀ d cs, Q { d with flagged := false } (eraseFlagList cs) = Q d cs) :
    ∀ ts, allNodesList Q (eraseFlagList ts) = allNodesList Q ts
  | [] => by simp [eraseFlagList]
  | t :: ts => by
    rw [eraseFlagList_cons, allNodesList_cons, allNodesList_cons,
      allNodes_eraseFlag Q hQ t, allNodesList_eraseFlag Q hQ ts]
end

theorem wellFormed_eraseFlag (t : UTree) :
    wellFormed (eraseFlag t) = wellFormed t :=
  allNodes_eraseFlag wellFormedP
    (fun d cs => by simp [wellFormedP, eraseFlagList_isEmpty]) t

theorem allMaterialized_eraseFlag (t : UTree) :
    allMaterialized (eraseFlag t) = allMaterialized t :=
  allNodes_eraseFlag matP (fun d cs => by simp [matP]) t

theorem wellFormed_toggleAt (t : UTree) (p : List Nat) :
    wellFormed (toggleAt t p) = wellFormed t := by
  rw [← wellFormed_eraseFlag (toggleAt t p), eraseFlag_toggleAt,
    wellFormed_eraseFlag]

theorem allMaterialized_toggleAt (t : UTree) (p : List Nat) :
    allMaterialized (toggleAt t p) = allMaterialized t := by
  rw [← allMaterialized_eraseFlag (toggleAt t p), eraseFlag_toggleAt,
    allMaterialized_eraseFlag]

/-! ### The invariant under full materialization -/

/-- Variant of `invP` for a fully materialized tree: every direct child
counts. -/
def invSimpleP (d : UnitData) (cs : List UTree) : Bool :=
  d.is_leaf || (d.flagged == (cs.isEmpty || cs.any flagOf))

/-- Whole-tree variant of `selectionInvariant` for fully materialized
trees. -/
def invSimple : UTree → Bool := allNodes invSimpleP

theorem matChildren_eq (cs : List UTree)
    (h : allNodesList matP cs = true) : matChildren cs = cs := by
  induction cs with
  | nil => simp [matChildren]
  | cons t ts ih =>
    rw [allNodesList_cons, Bool.and_eq_true] at h
    have hm : (rootData t).materialized = true := by
      cases t with
      | node td tcs =>
        have := h.1
        rw [allNodes_node, Bool.and_eq_true] at this
        simpa [matP, rootData] using this.1
    simp [matChildren] at ih ⊢
    exact ⟨hm, ih h.2⟩

mutual
theorem selectionInvariant_eq_invSimple :
    ∀ t, allMaterialized t = true → selectionInvariant t = invSimple t
  | UTree.node d cs, h => by
    have h' : (matP d cs && allNodesList matP cs) = true := by
      rw [← allNodes_node]
      exact h
    rw [Bool.and_eq_true] at h'
    show allNodes invP (UTree.node d cs) = allNodes invSimpleP (UTree.node d cs)
    rw [allNodes_node, allNodes_node, selectionInvariantList_eq cs h'.2]
    have : invP d cs = invSimpleP d cs := by
      rw [invP, invSimpleP, matChildren_eq cs h'.2]
    rw [this]

theorem selectionInvariantList_eq :
    ∀ ts, allNodesList matP ts = true →
      allNodesList invP ts = allNodesList invSimpleP ts
  | [], _ => by simp [allNodesList]
  | t :: ts, h => by
    rw [allNodesList_cons, Bool.and_eq_true] at h
    have h1 : allNodes invP t = allNodes invSimpleP t :=
      selectionInvariant_eq_invSimple t h.1
    rw [allNodesList_cons, allNodesList_cons, h1,
      selectionInvariantList_eq ts h.2]
end

theorem rootFlag_of_allFlags (b : Bool) (t : UTree)
    (h : allNodes (flagP b) t = true) : (rootData t).flagged = b := by
  cases t with
  | node d cs =>
    rw [allNodes_node, Bool.and_eq_true] at h
    have := h.1
    simp [flagP] at this
    simpa [rootData] using this

theorem anyFlag_of_allFalse : ∀ cs : List UTree,
    allNodesList (flagP false) cs = true → cs.any flagOf = false
  | [] => by simp
  | c :: ts => by
    intro h
    rw [allNodesList_cons, Bool.and_eq_true] at h
    have hc := rootFlag_of_allFlags false c h.1
    simp [flagOf, hc, anyFlag_of_allFalse ts h.2]

mutual
theorem allFlags_true_invSimple : ∀ t, allFlags true t = true → invSimple t = true
  | UTree.node d cs, h => by
    have h' : (flagP true d cs && allNodesList (flagP true) cs) = true := by
      rw [← allNodes_node]; exact h
    rw [Bool.and_eq_true] at h'
    show allNodes invSimpleP (UTree.node d cs) = true
    rw [allNodes_node, Bool.and_eq_true]
    refine ⟨?_, allFlagsList_true_invSimple cs h'.2⟩
    have hd : d.flagged = true := by simpa [flagP] using h'.1
    cases cs with
    | nil => simp [invSimpleP, hd]
    | cons c ts =>
      have hlist := h'.2
      rw [allNodesList_cons, Bool.and_eq_true] at hlist
      have hc : (rootData c).flagged = true :=
        rootFlag_of_allFlags true c hlist.1
      simp [invSimpleP, hd, flagOf, hc]

theorem allFlagsList_true_invSimple :
    ∀ ts, allNodesList (flagP true) ts = true → allNodesList invSimpleP ts = true
  | [], _ => by simp [allNodesList]
  | t :: ts, h => by
    rw [allNodesList_cons, Bool.and_eq_true] at h
    rw [allNodesList_cons, Bool.and_eq_true]
    exact ⟨allFlags_true_invSimple t h.1, allFlagsList_true_invSimple ts h.2⟩
end

theorem wfP_imp_lcP : ∀ d cs, wellFormedP d cs = true → leafChildlessP d cs = true := by
  intro d cs h
  by_cases hl : d.is_leaf
  · simp [wellFormedP, hl] at h
    simp [leafChildlessP, hl, h]
  · simp [leafChildlessP, hl]

mutual
theorem allFlags_false_invSimple :
    ∀ t, allFlags false t = true → wellFormed t = true → invSimple t = true
  | UTree.node d cs, h, hw => by
    have h' : (flagP false d cs && allNodesList (flagP false) cs) = true := by
      rw [← allNodes_node]; exact h
    have hw' : (wellFormedP d cs && allNodesList wellFormedP cs) = true := by
      rw [← allNodes_node]; exact hw
    rw [Bool.and_eq_true] at h' hw'
    show allNodes invSimpleP (UTree.node d cs) = true
    rw [allNodes_node, Bool.and_eq_true]
    refine ⟨?_, allFlagsList_false_invSimple cs h'.2 hw'.2⟩
    by_cases hl : d.is_leaf
    · simp [invSimpleP, hl]
    · have hd : d.flagged = false := by simpa [flagP] using h'.1
      have hne : cs.isEmpty = false := by
        have := hw'.1
        simpa [wellFormedP, hl] using this
      have hany := anyFlag_of_allFalse cs h'.2
      simp [invSimpleP, hl, hd, hne, hany]

theorem allFlagsList_false_invSimple :
    ∀ ts, allNodesList (flagP false) ts = true →
      allNodesList wellFormedP ts = true → allNodesList invSimpleP ts = true
  | [], _, _ => by simp [allNodesList]
  | t :: ts, h, hw => by
    rw [allNodesList_cons, Bool.and_eq_true] at h hw
    rw [allNodesList_cons, Bool.and_eq_true]
    exact ⟨allFlags_false_invSimple t h.1 hw.1,
      allFlagsList_false_invSimple ts h.2 hw.2⟩
end

theorem allFlags_set_desc_refl (b : Bool) (d : UnitData) (cs : List UTree)
    (hw : wellFormed (UTree.node d cs) = true)
    (hm : allMaterialized (UTree.node d cs) = true) :
    allNodes (flagP b)
      (set_descendants_state b (UTree.node { d with flagged := b } cs)) = true := by
  have hw' : (wellFormedP d cs && allNodesList wellFormedP cs) = true := by
    rw [← allNodes_node]; exact hw
  have hm' : (matP d cs && allNodesList matP cs) = true := by
    rw [← allNodes_node]; exact hm
  rw [Bool.and_eq_true] at hw' hm'
  by_cases hl : d.is_leaf
  · have hcs : cs = [] := by
      cases cs with
      | nil => rfl
      | cons a as =>
        have := hw'.1
        simp [wellFormedP, hl] at this
    subst hcs
    simp [set_descendants_state, hl, allNodes_node, flagP, allNodesList]
  · have hlist := set_descendants_list_allFlags b cs hm'.2
      (allNodesList_imp wfP_imp_lcP cs hw'.2)
    simp [set_descendants_state, hl, allNodes_node, flagP, hlist]

/-! ### Decomposition of the toggle along the path -/

theorem set_isEmpty {α : Type} (cs : List α) (i : Nat) (x : α) :
    (cs.set i x).isEmpty = cs.isEmpty := by
  cases cs <;> cases i <;> simp

theorem toggleMid_nil (d : UnitData) (cs : List UTree) (b : Bool) :
    toggleMid (UTree.node d cs) [] b
      = set_descendants_state b (UTree.node { d with flagged := b } cs) := by
  simp [toggleMid, modifyDataAt, mapSubtreeAt]

theorem toggleMid_cons (d : UnitData) (cs : List UTree) (i : Nat)
    (p : List Nat) (b : Bool) (c : UTree) (hc : cs[i]? = some c) :
    toggleMid (UTree.node d cs) (i :: p) b
      = UTree.node d (cs.set i (toggleMid c p b)) := by
  have h2 : (cs.set i (modifyDataAt (fun d => { d with flagged := b }) c p))[i]?
      = some (modifyDataAt (fun d => { d with flagged := b }) c p) :=
    getq_set_self cs i c _ hc
  simp only [toggleMid, modifyDataAt, mapSubtreeAt, updateChild, hc, h2,
    set_set_self]

theorem rootData_sds (b : Bool) (t : UTree) :
    rootData (set_descendants_state b t) = rootData t := by
  cases t with
  | node d cs =>
    by_cases hl : d.is_leaf <;> simp [set_descendants_state, hl, rootData]

theorem nodeAt_toggleMid_self (b : Bool) : ∀ (t : UTree) (p : List Nat)
    (d0 : UnitData), nodeAt t p = some d0 →
    nodeAt (toggleMid t p b) p = some { d0 with flagged := b }
  | UTree.node d cs, [], d0, h => by
    have hd : d = d0 := by simpa [nodeAt_nil, rootData] using h
    subst hd
    rw [toggleMid_nil, nodeAt_nil, rootData_sds]
    simp [rootData]
  | UTree.node d cs, i :: p, d0, h => by
    cases hc : cs[i]? with
    | none => rw [nodeAt_cons_none d cs i p hc] at h; exact absurd h (by simp)
    | some c =>
      rw [nodeAt_cons d cs i p c hc] at h
      rw [toggleMid_cons d cs i p b c hc,
        nodeAt_cons d (cs.set i (toggleMid c p b)) i p (toggleMid c p b)
          (getq_set_self cs i c (toggleMid c p b) hc)]
      exact nodeAt_toggleMid_self b c p d0 h

/-- Whether the upward walk of the toggle-to-false pipeline broke at or
below the level of the given node. -/
def ancStop (t : UTree) (p : List Nat) : Bool :=
  (anc_set_false false (toggleMid t p false) p).2

theorem ancStop_def (t : UTree) (p : List Nat) :
    ancStop t p = (anc_set_false false (toggleMid t p false) p).2 := rfl

theorem toggleAt_nil (t : UTree) (d0 : UnitData) (h : nodeAt t [] = some d0) :
    toggleAt t [] = toggleMid t [] (!d0.flagged) := by
  have hm : nodeAt (toggleMid t [] (!d0.flagged)) []
      = some { d0 with flagged := !d0.flagged } :=
    nodeAt_toggleMid_self (!d0.flagged) t [] d0 h
  simp only [toggleAt, h, set_ancestors_state, hm]
  split
  · simp [anc_set_true]
  · simp [anc_set_false]

theorem toggleAt_cons_toTrue (d : UnitData) (cs : List UTree) (i : Nat)
    (p : List Nat) (c : UTree) (d0 : UnitData) (hc : cs[i]? = some c)
    (h0 : nodeAt c p = some d0) (hflag : d0.flagged = false) :
    toggleAt (UTree.node d cs) (i :: p)
      = UTree.node { d with flagged := true } (cs.set i (toggleAt c p)) := by
  have hn : nodeAt (UTree.node d cs) (i :: p) = some d0 := by
    rw [nodeAt_cons d cs i p c hc]; exact h0
  have hmc : nodeAt (toggleMid c p true) p = some { d0 with flagged := true } :=
    nodeAt_toggleMid_self true c p d0 h0
  have hmn : nodeAt (UTree.node d (cs.set i (toggleMid c p true))) (i :: p)
      = some { d0 with flagged := true } := by
    rw [nodeAt_cons d (cs.set i (toggleMid c p true)) i p (toggleMid c p true)
      (getq_set_self cs i c (toggleMid c p true) hc)]
    exact hmc
  have hR : toggleAt c p = anc_set_true true (toggleMid c p true) p := by
    simp only [toggleAt, h0, hflag, Bool.not_false, set_ancestors_state, hmc]
    simp
  rw [hR]
  simp only [toggleAt, hn, hflag, Bool.not_false]
  rw [toggleMid_cons d cs i p true c hc]
  simp only [set_ancestors_state, hmn]
  rw [if_pos trivial]
  simp only [anc_set_true, updateChild,
    getq_set_self cs i c (toggleMid c p true) hc, set_set_self]

theorem toggleAt_cons_toFalse (d : UnitData) (cs : List UTree) (i : Nat)
    (p : List Nat) (c : UTree) (d0 : UnitData) (hc : cs[i]? = some c)
    (h0 : nodeAt c p = some d0) (hflag : d0.flagged = true) :
    (toggleAt (UTree.node d cs) (i :: p) =
      (if ancStop c p then UTree.node d (cs.set i (toggleAt c p))
       else if (cs.set i (toggleAt c p)).any flagOf then
         UTree.node d (cs.set i (toggleAt c p))
       else UTree.node { d with flagged := false } (cs.set i (toggleAt c p))))
    ∧ (ancStop (UTree.node d cs) (i :: p)
        = (ancStop c p || (cs.set i (toggleAt c p)).any flagOf)) := by
  have hn : nodeAt (UTree.node d cs) (i :: p) = some d0 := by
    rw [nodeAt_cons d cs i p c hc]; exact h0
  have hmc : nodeAt (toggleMid c p false) p
      = some { d0 with flagged := false } :=
    nodeAt_toggleMid_self false c p d0 h0
  have hmn : nodeAt (UTree.node d (cs.set i (toggleMid c p false))) (i :: p)
      = some { d0 with flagged := false } := by
    rw [nodeAt_cons d (cs.set i (toggleMid c p false)) i p (toggleMid c p false)
      (getq_set_self cs i c (toggleMid c p false) hc)]
    exact hmc
  have hR : toggleAt c p = (anc_set_false false (toggleMid c p false) p).1 := by
    simp only [toggleAt, h0, hflag, Bool.not_true, set_ancestors_state, hmc]
    rw [ite_cond_false]
  have hL : toggleAt (UTree.node d cs) (i :: p)
      = (anc_set_false false
          (UTree.node d (cs.set i (toggleMid c p false))) (i :: p)).1 := by
    simp only [toggleAt, hn, hflag, Bool.not_true]
    rw [toggleMid_cons d cs i p false c hc]
    simp only [set_ancestors_state, hmn]
    rw [ite_cond_false]
  have hMid : ancStop (UTree.node d cs) (i :: p)
      = (anc_set_false false
          (UTree.node d (cs.set i (toggleMid c p false))) (i :: p)).2 := by
    rw [ancStop_def, toggleMid_cons d cs i p false c hc]
  have hstep : anc_set_false false
      (UTree.node d (cs.set i (toggleMid c p false))) (i :: p)
      = (if (anc_set_false false (toggleMid c p false) p).2 then
          (UTree.node d
            (cs.set i (anc_set_false false (toggleMid c p false) p).1), true)
        else if (cs.set i (anc_set_false false (toggleMid c p false) p).1).any
            flagOf then
          (UTree.node d
            (cs.set i (anc_set_false false (toggleMid c p false) p).1), true)
        else (UTree.node { d with flagged := false }
          (cs.set i (anc_set_false false (toggleMid c p false) p).1),
            false)) := by
    simp only [anc_set_false, getq_set_self cs i c (toggleMid c p false) hc,
      set_set_self]
  constructor
  · rw [hL, hstep, ancStop_def c p, hR]
    by_cases hA : (anc_set_false false (toggleMid c p false) p).2 = true
    · rw [if_pos hA, if_pos hA]
    · rw [if_neg hA, if_neg hA]
      by_cases hB : (cs.set i
          (anc_set_false false (toggleMid c p false) p).1).any flagOf = true
      · rw [if_pos hB, if_pos hB]
      · rw [if_neg hB, if_neg hB]
  · rw [hMid, hstep, ancStop_def c p, hR]
    by_cases hA : (anc_set_false false (toggleMid c p false) p).2 = true
    · rw [if_pos hA]
      simp [hA]
    · rw [if_neg hA]
      by_cases hB : (cs.set i
          (anc_set_false false (toggleMid c p false) p).1).any flagOf = true
      · rw [if_pos hB]
        simp [hA, hB]
      · rw [if_neg hB]
        simp only [Bool.not_eq_true] at hA hB
        simp [hA, hB]

/-! ### Preservation of the invariant by one space-key toggle -/

theorem toggle_master : ∀ (p : List Nat) (t : UTree) (d0 : UnitData),
    nodeAt t p = some d0 →
    wellFormed t = true → allMaterialized t = true → invSimple t = true →
    invSimple (toggleAt t p) = true
    ∧ (d0.flagged = false → (rootData (toggleAt t p)).flagged = true)
    ∧ (d0.flagged = true →
        (ancStop t p = true →
          (rootData (toggleAt t p)).flagged = (rootData t).flagged)
        ∧ (ancStop t p = false → (rootData (toggleAt t p)).flagged = false))
  | [], t, d0, h, hw, hm, _ => by
    have ht : toggleAt t [] = toggleMid t [] (!d0.flagged) := toggleAt_nil t d0 h
    cases t with
    | node d cs =>
      have hd : d = d0 := by simpa [nodeAt_nil, rootData] using h
      subst hd
      have hmid : toggleMid (UTree.node d cs) [] (!d.flagged)
          = set_descendants_state (!d.flagged)
              (UTree.node { d with flagged := !d.flagged } cs) :=
        toggleMid_nil d cs (!d.flagged)
      have hflags : allNodes (flagP (!d.flagged))
          (toggleAt (UTree.node d cs) []) = true := by
        rw [ht, hmid]
        exact allFlags_set_desc_refl (!d.flagged) d cs hw hm
      have hroot : (rootData (toggleAt (UTree.node d cs) [])).flagged
          = !d.flagged := by
        rw [ht, hmid, rootData_sds]
        simp [rootData]
      have hstop0 : ancStop (UTree.node d cs) [] = false := by
        simp [ancStop_def, anc_set_false]
      refine ⟨?_, ?_, ?_⟩
      · cases hb : d.flagged with
        | false =>
          apply allFlags_true_invSimple
          rw [hb] at hflags
          simpa using hflags
        | true =>
          apply allFlags_false_invSimple
          · rw [hb] at hflags
            simpa using hflags
          · rw [wellFormed_toggleAt]
            exact hw
      · intro hb
        rw [hroot, hb]
        simp
      · intro hb
        constructor
        · intro hst
          rw [hstop0] at hst
          simp at hst
        · intro _
          rw [hroot, hb]
          simp
  | i :: p', UTree.node d cs, d0, h, hw, hm, hinv => by
    cases hc : cs[i]? with
    | none =>
      rw [nodeAt_cons_none d cs i p' hc] at h
      exact absurd h (by simp)
    | some c =>
      rw [nodeAt_cons d cs i p' c hc] at h
      have hw' : (wellFormedP d cs && allNodesList wellFormedP cs) = true := by
        rw [← allNodes_node]; exact hw
      have hm' : (matP d cs && allNodesList matP cs) = true := by
        rw [← allNodes_node]; exact hm
      have hinv' : (invSimpleP d cs && allNodesList invSimpleP cs) = true := by
        rw [← allNodes_node]; exact hinv
      rw [Bool.and_eq_true] at hw' hm' hinv'
      have hwc : wellFormed c = true := allNodesList_getq wellFormedP cs i c hw'.2 hc
      have hmc : allMaterialized c = true := allNodesList_getq matP cs i c hm'.2 hc
      have hic : invSimple c = true := allNodesList_getq invSimpleP cs i c hinv'.2 hc
      have IH := toggle_master p' c d0 h hwc hmc hic
      cases hf0 : d0.flagged with
      | false =>
        have hdec := toggleAt_cons_toTrue d cs i p' c d0 hc h hf0
        have hcflag : (rootData (toggleAt c p')).flagged = true := IH.2.1 hf0
        refine ⟨?_, ?_, ?_⟩
        · rw [hdec]
          show allNodes invSimpleP _ = true
          rw [allNodes_node, Bool.and_eq_true]
          refine ⟨?_, allNodesList_set invSimpleP cs i _ hinv'.2 IH.1⟩
          by_cases hl : d.is_leaf
          · simp [invSimpleP, hl]
          · have hany : (cs.set i (toggleAt c p')).any flagOf = true := by
              have h1 : (cs.set i (toggleAt c p')).any flagOf
                  = (sibAny cs i || (rootData (toggleAt c p')).flagged) :=
                any_set_sib cs i c (toggleAt c p') hc
              rw [h1, hcflag, Bool.or_true]
            simp [invSimpleP, hl, hany]
        · intro _
          rw [hdec]
          simp [rootData]
        · intro hb
          simp at hb
      | true =>
        obtain ⟨hdec, hstop⟩ := toggleAt_cons_toFalse d cs i p' c d0 hc h hf0
        have IH3 := IH.2.2 hf0
        cases hst : ancStop c p' with
        | true =>
          have hcflag : (rootData (toggleAt c p')).flagged
              = (rootData c).flagged := IH3.1 hst
          rw [hst] at hdec hstop
          rw [ite_cond_true] at hdec
          rw [Bool.true_or] at hstop
          have hae : cs.any flagOf = (sibAny cs i || (rootData c).flagged) :=
            any_eq_sib cs i c hc
          have hanyeq : (cs.set i (toggleAt c p')).any flagOf
              = cs.any flagOf := by
            have h1 : (cs.set i (toggleAt c p')).any flagOf
                = (sibAny cs i || (rootData (toggleAt c p')).flagged) :=
              any_set_sib cs i c (toggleAt c p') hc
            rw [h1, hcflag, ← hae]
          refine ⟨?_, ?_, ?_⟩
          · rw [hdec]
            show allNodes invSimpleP _ = true
            rw [allNodes_node, Bool.and_eq_true]
            refine ⟨?_, allNodesList_set invSimpleP cs i _ hinv'.2 IH.1⟩
            have hlocal : invSimpleP d (cs.set i (toggleAt c p'))
                = invSimpleP d cs := by
              rw [invSimpleP, invSimpleP, set_isEmpty, hanyeq]
            rw [hlocal]
            exact hinv'.1
          · intro hb
            simp at hb
          · intro _
            constructor
            · intro _
              rw [hdec]
              simp [rootData]
            · intro hq
              rw [hstop] at hq
              simp at hq
        | false =>
          have hcflag : (rootData (toggleAt c p')).flagged = false := IH3.2 hst
          rw [hst] at hdec hstop
          rw [ite_cond_false] at hdec
          rw [Bool.false_or] at hstop
          have hae : cs.any flagOf = (sibAny cs i || (rootData c).flagged) :=
            any_eq_sib cs i c hc
          have hany : (cs.set i (toggleAt c p')).any flagOf = sibAny cs i := by
            have h1 : (cs.set i (toggleAt c p')).any flagOf
                = (sibAny cs i || (rootData (toggleAt c p')).flagged) :=
              any_set_sib cs i c (toggleAt c p') hc
            rw [h1, hcflag, Bool.or_false]
          rw [hany] at hdec hstop
          cases hsib : sibAny cs i with
          | true =>
            rw [hsib] at hdec hstop
            rw [ite_cond_true] at hdec
            refine ⟨?_, ?_, ?_⟩
            · rw [hdec]
              show allNodes invSimpleP _ = true
              rw [allNodes_node, Bool.and_eq_true]
              refine ⟨?_, allNodesList_set invSimpleP cs i _ hinv'.2 IH.1⟩
              by_cases hl : d.is_leaf
              · simp [invSimpleP, hl]
              · have hdf : d.flagged = true := by
                  simpa [invSimpleP, hl, hae, hsib] using hinv'.1
                have hanyset : (cs.set i (toggleAt c p')).any flagOf = true := by
                  rw [hany, hsib]
                simp [invSimpleP, hl, hdf, hanyset]
            · intro hb
              simp at hb
            · intro _
              constructor
              · intro _
                rw [hdec]
                simp [rootData]
              · intro hq
                rw [hstop] at hq
                simp at hq
          | false =>
            rw [hsib] at hdec hstop
            rw [ite_cond_false] at hdec
            refine ⟨?_, ?_, ?_⟩
            · rw [hdec]
              show allNodes invSimpleP _ = true
              rw [allNodes_node, Bool.and_eq_true]
              refine ⟨?_, allNodesList_set invSimpleP cs i _ hinv'.2 IH.1⟩
              by_cases hl : d.is_leaf
              · simp [invSimpleP, hl]
              · have hne : (cs.set i (toggleAt c p')).isEmpty = false := by
                  rw [set_isEmpty]
                  cases cs with
                  | nil => simp at hc
                  | cons a as => simp
                have hanyset : (cs.set i (toggleAt c p')).any flagOf = false := by
                  rw [hany, hsib]
                simp [invSimpleP, hl, hne, hanyset]
            · intro hb
              simp at hb
            · intro _
              constructor
              · intro hq
                rw [hstop] at hq
                simp at hq
              · intro _
                rw [hdec]
                simp [rootData]

theorem toggleAt_invalid (t : UTree) (p : List Nat)
    (h : nodeAt t p = none) : toggleAt t p = t := by
  simp [toggleAt, h]

theorem fold_toggle_invariants : ∀ (ps : List (List Nat)) (t : UTree),
    wellFormed t = true → allMaterialized t = true → invSimple t = true →
    wellFormed (List.foldl toggleAt t ps) = true
    ∧ allMaterialized (List.foldl toggleAt t ps) = true
    ∧ invSimple (List.foldl toggleAt t ps) = true
  | [], _, hw, hm, hi => ⟨hw, hm, hi⟩
  | p :: ps, t, hw, hm, hi => by
    have hw1 : wellFormed (toggleAt t p) = true := by
      rw [wellFormed_toggleAt]; exact hw
    have hm1 : allMaterialized (toggleAt t p) = true := by
      rw [allMaterialized_toggleAt]; exact hm
    have hi1 : invSimple (toggleAt t p) = true := by
      cases hn : nodeAt t p with
      | none => rw [toggleAt_invalid t p hn]; exact hi
      | some d0 => exact (toggle_master p t d0 hn hw hm hi).1
    simpa [List.foldl_cons] using
      fold_toggle_invariants ps (toggleAt t p) hw1 hm1 hi1

/-- C3: starting from the all-included, fully materialized initial state of
a well-shaped tree (leaves childless, categories nonempty — the shape
`CategoryNode`/`JobNode` produce), after any sequence of space-key toggles
every non-leaf node's flag is true exactly when at least one materialized
direct child is flagged, or the node has zero materialized children. -/
theorem selection_invariant_after_toggles (t : UTree) (ps : List (List Nat))
    (hwf : wellFormed t = true) (hmat : allMaterialized t = true)
    (hinit : allFlags true t = true) :
    selectionInvariant (List.foldl toggleAt t ps) = true := by
  have h0 : invSimple t = true := allFlags_true_invSimple t hinit
  obtain ⟨_, hm, hi⟩ := fold_toggle_invariants ps t hwf hmat h0
  rw [selectionInvariant_eq_invSimple (List.foldl toggleAt t ps) hm]
  exact hi

theorem selection_invariant_after_toggles_witness :
    wellFormed treeAB = true
    ∧ allMaterialized treeAB = true
    ∧ allFlags true treeAB = true
    ∧ selectionInvariant (List.foldl toggleAt treeAB [[0, 0], [1, 0], [0]]) = true :=
  ⟨by decide, by decide, by decide,
   selection_invariant_after_toggles treeAB [[0, 0], [1, 0], [0]]
     (by decide) (by decide) (by decide)⟩

/-! ### C6/C7: the widget cache after construction, and run() collection -/

theorem cacheEntriesList_nil : cacheEntriesList [] = [] := by
  simp [cacheEntriesList]

theorem cacheEntriesList_cons (t : UTree) (ts : List UTree) :
    cacheEntriesList (t :: ts) = cacheEntries t ++ cacheEntriesList ts := by
  simp [cacheEntriesList]

theorem cacheEntries_node (d : UnitData) (cs : List UTree) :
    cacheEntries (UTree.node d cs)
      = (if d.is_leaf && d.materialized then [(d.key, d.flagged)] else [])
          ++ cacheEntriesList cs := by
  simp [cacheEntries]

theorem leafKeysList_nil : leafKeysList [] = [] := by
  simp [leafKeysList]

theorem leafKeysList_cons (t : UTree) (ts : List UTree) :
    leafKeysList (t :: ts) = leafKeys t ++ leafKeysList ts := by
  simp [leafKeysList]

theorem leafKeys_node (d : UnitData) (cs : List UTree) :
    leafKeys (UTree.node d cs)
      = (if d.is_leaf then [d.key] else []) ++ leafKeysList cs := by
  simp [leafKeys]

theorem cacheEntries_mkJobLeaf (id : String) :
    cacheEntries (mkJobLeaf id) = [(id, true)] := by
  simp [mkJobLeaf, cacheEntries_node, cacheEntriesList_nil]

theorem cacheEntriesList_map_leaf : ∀ ids : List String,
    cacheEntriesList (ids.map mkJobLeaf) = ids.map (fun id => (id, true))
  | [] => by simp [cacheEntriesList]
  | id :: ids => by
    simp [cacheEntriesList_cons, cacheEntries_mkJobLeaf,
      cacheEntriesList_map_leaf ids]

theorem cacheEntries_mkCategoryNode (jobs : List JobInfo) (c : String) :
    cacheEntries (mkCategoryNode jobs c)
      = (categoryJobIds jobs c).map (fun id => (id, true)) := by
  simp [mkCategoryNode, cacheEntries_node, cacheEntriesList_map_leaf]

theorem cacheEntriesList_map_cat (jobs : List JobInfo) : ∀ cats : List String,
    cacheEntriesList (cats.map (mkCategoryNode jobs))
      = (cats.map (fun c =>
          (categoryJobIds jobs c).map (fun id => (id, true)))).flatten
  | [] => by simp [cacheEntriesList]
  | c :: cats => by
    simp [cacheEntriesList_cons, cacheEntries_mkCategoryNode,
      cacheEntriesList_map_cat jobs cats]

theorem cacheEntries_initialTree (cats : List String) (jobs : List JobInfo) :
    cacheEntries (initialTree cats jobs)
      = (cats.map (fun c =>
          (categoryJobIds jobs c).map (fun id => (id, true)))).flatten := by
  simp [initialTree, cacheEntries_node, cacheEntriesList_map_cat]

theorem leafKeys_mkJobLeaf (id : String) : leafKeys (mkJobLeaf id) = [id] := by
  simp [mkJobLeaf, leafKeys_node, leafKeysList_nil]

theorem leafKeysList_map_leaf : ∀ ids : List String,
    leafKeysList (ids.map mkJobLeaf) = ids
  | [] => by simp [leafKeysList]
  | id :: ids => by
    simp [leafKeysList_cons, leafKeys_mkJobLeaf, leafKeysList_map_leaf ids]

theorem leafKeys_mkCategoryNode (jobs : List JobInfo) (c : String) :
    leafKeys (mkCategoryNode jobs c) = categoryJobIds jobs c := by
  simp [mkCategoryNode, leafKeys_node, leafKeysList_map_leaf]

theorem leafKeysList_map_cat (jobs : List JobInfo) : ∀ cats : List String,
    leafKeysList (cats.map (mkCategoryNode jobs))
      = (cats.map (categoryJobIds jobs)).flatten
  | [] => by simp [leafKeysList]
  | c :: cats => by
    simp [leafKeysList_cons, leafKeys_mkCategoryNode,
      leafKeysList_map_cat jobs cats]

theorem leafKeys_initialTree (cats : List String) (jobs : List JobInfo) :
    leafKeys (initialTree cats jobs)
      = (cats.map (categoryJobIds jobs)).flatten := by
  simp [initialTree, leafKeys_node, leafKeysList_map_cat]

theorem allMat_leafList : ∀ ids : List String,
    allNodesList matP (ids.map mkJobLeaf) = true
  | [] => by simp [allNodesList]
  | id :: ids => by
    simp [allNodesList_cons, mkJobLeaf, allNodes_node, matP, allNodesList,
      allMat_leafList ids]

theorem allMat_catList (jobs : List JobInfo) : ∀ cats : List String,
    allNodesList matP (cats.map (mkCategoryNode jobs)) = true
  | [] => by simp [allNodesList]
  | c :: cats => by
    simp [allNodesList_cons, mkCategoryNode, allNodes_node, matP,
      allMat_leafList, allMat_catList jobs cats]

theorem allMat_initialTree (cats : List String) (jobs : List JobInfo) :
    allMaterialized (initialTree cats jobs) = true := by
  show allNodes matP _ = true
  simp [initialTree, allNodes_node, matP, allMat_catList]

theorem mem_insertSorted (x : String) : ∀ (l : List String) (a : String),
    a ∈ insertSorted x l ↔ a = x ∨ a ∈ l
  | [], a => by simp [insertSorted]
  | y :: ys, a => by
    by_cases h : strLe x y
    · simp [insertSorted, h]
    · rw [insertSorted, if_neg h, List.mem_cons, mem_insertSorted x ys a,
        List.mem_cons]
      tauto

theorem mem_sortStrings (l : List String) (a : String) :
    a ∈ sortStrings l ↔ a ∈ l := by
  induction l with
  | nil => simp [sortStrings]
  | cons x xs ih =>
    rw [sortStrings, List.foldr_cons, mem_insertSorted, List.mem_cons]
    rw [sortStrings] at ih
    rw [ih]

theorem mem_categoryJobIds (jobs : List JobInfo) (c k : String) :
    k ∈ categoryJobIds jobs c
      ↔ ∃ j, j ∈ jobs ∧ j.category_id = c ∧ j.id = k := by
  rw [categoryJobIds, mem_sortStrings]
  simp [List.mem_map, List.mem_filter]
  constructor
  · rintro ⟨j, ⟨hj, hcat⟩, hid⟩
    exact ⟨j, hj, hcat, hid⟩
  · rintro ⟨j, hj, hcat, hid⟩
    exact ⟨j, ⟨hj, hcat⟩, hid⟩

/-- C6: after `CategoryBrowser.__init__` every category widget and every
job widget of the whole tree is materialized; every job id is registered in
the widget cache with flag true; the cache keys are exactly the leaf keys
of the tree (no leaf is silently excluded for being unexpanded); and
`run()` with no user toggles returns exactly the job ids of the static todo
list whose category participates. -/
theorem init_registers_all (cats : List String) (jobs : List JobInfo) :
    allMaterialized (initialTree cats jobs) = true
    ∧ (∀ e, e ∈ cacheEntries (initialTree cats jobs) → e.2 = true)
    ∧ (cacheEntries (initialTree cats jobs)).map Prod.fst
        = leafKeys (initialTree cats jobs)
    ∧ (∀ k, k ∈ runSelection (initialTree cats jobs)
        ↔ ∃ j, j ∈ jobs ∧ j.id = k ∧ j.category_id ∈ cats) := by
  have hsnd : ∀ e, e ∈ cacheEntries (initialTree cats jobs) → e.2 = true := by
    intro e he
    rw [cacheEntries_initialTree] at he
    obtain ⟨l, hl, hel⟩ := List.mem_flatten.mp he
    obtain ⟨c, _, rfl⟩ := List.mem_map.mp hl
    obtain ⟨id, _, rfl⟩ := List.mem_map.mp hel
    rfl
  have hfilter : (cacheEntries (initialTree cats jobs)).filter (fun e => e.2)
      = cacheEntries (initialTree cats jobs) := by
    rw [List.filter_eq_self]
    intro e he
    rw [hsnd e he]
  have hkeys : (cacheEntries (initialTree cats jobs)).map Prod.fst
      = leafKeys (initialTree cats jobs) := by
    rw [cacheEntries_initialTree, leafKeys_initialTree, List.map_flatten,
      List.map_map]
    congr 1
    apply List.map_congr_left
    intro c _
    show List.map Prod.fst
        (List.map (fun id => (id, true)) (categoryJobIds jobs c))
      = categoryJobIds jobs c
    rw [List.map_map]
    exact List.map_id _
  refine ⟨allMat_initialTree cats jobs, hsnd, hkeys, ?_⟩
  intro k
  have hrun : runSelection (initialTree cats jobs)
      = leafKeys (initialTree cats jobs) := by
    rw [runSelection, hfilter]
    exact hkeys
  rw [hrun, leafKeys_initialTree]
  constructor
  · intro hk
    obtain ⟨l, hl, hkl⟩ := List.mem_flatten.mp hk
    obtain ⟨c, hcc, rfl⟩ := List.mem_map.mp hl
    obtain ⟨j, hj, hcat, hid⟩ := (mem_categoryJobIds jobs c k).mp hkl
    exact ⟨j, hj, hid, hcat ▸ hcc⟩
  · rintro ⟨j, hj, hid, hcat⟩
    refine List.mem_flatten.mpr ⟨categoryJobIds jobs j.category_id,
      List.mem_map.mpr ⟨j.category_id, hcat, rfl⟩, ?_⟩
    exact (mem_categoryJobIds jobs j.category_id k).mpr ⟨j, hj, rfl, hid⟩

theorem init_registers_all_witness :
    (∀ e, e ∈ cacheEntries (initialTree ["A", "B"] jobsAB) → e.2 = true)
    ∧ ("job1" ∈ runSelection (initialTree ["A", "B"] jobsAB)
        ↔ ∃ j, j ∈ jobsAB ∧ j.id = "job1" ∧ j.category_id ∈ ["A", "B"]) :=
  ⟨(init_registers_all ["A", "B"] jobsAB).2.1,
   (init_registers_all ["A", "B"] jobsAB).2.2.2 "job1"⟩

mutual
theorem cache_fst_sub_leafKeys : ∀ (t : UTree) (e : String × Bool),
    e ∈ cacheEntries t → e.1 ∈ leafKeys t
  | UTree.node d cs, e, he => by
    rw [cacheEntries_node] at he
    rw [leafKeys_node]
    rcases List.mem_append.mp he with h | h
    · by_cases hl : (d.is_leaf && d.materialized) = true
      · rw [if_pos hl] at h
        rw [Bool.and_eq_true] at hl
        have he1 : e = (d.key, d.flagged) := by simpa using h
        apply List.mem_append.mpr
        left
        rw [if_pos hl.1, he1]
        simp
      · rw [if_neg hl] at h
        simp at h
    · exact List.mem_append.mpr (Or.inr (cacheList_fst_sub_leafKeys cs e h))

theorem cacheList_fst_sub_leafKeys : ∀ (ts : List UTree) (e : String × Bool),
    e ∈ cacheEntriesList ts → e.1 ∈ leafKeysList ts
  | [], e, he => by simp [cacheEntriesList] at he
  | t :: ts, e, he => by
    rw [cacheEntriesList_cons] at he
    rw [leafKeysList_cons]
    rcases List.mem_append.mp he with h | h
    · exact List.mem_append.mpr (Or.inl (cache_fst_sub_leafKeys t e h))
    · exact List.mem_append.mpr (Or.inr (cacheList_fst_sub_leafKeys ts e h))
end

/-- C7: only job (leaf) widgets register in the widget cache — only
`JobTreeWidget.__init__` calls `add_widget`, never `CategoryWidget` or the
root — so even though `run()` filters only on the flag, every key of the
returned selection is the key of a job leaf. -/
theorem run_selection_only_job_leaves (t : UTree) (k : String)
    (hk : k ∈ runSelection t) : k ∈ leafKeys t := by
  simp only [runSelection, List.mem_map, List.mem_filter] at hk
  obtain ⟨e, ⟨he, _⟩, rfl⟩ := hk
  exact cache_fst_sub_leafKeys t e he

theorem run_selection_only_job_leaves_witness :
    "job1" ∈ runSelection treeAB ∧ "job1" ∈ leafKeys treeAB :=
  ⟨by decide, run_selection_only_job_leaves treeAB "job1" (by decide)⟩
